import Mathlib

/-!
Verification of the document-structuring core of the
Data-collation-for-college-student repository.

The Python source (src/document_processor.py, src/ai_processor.py) is
shallowly embedded below.  Text is modelled as `List Char`; Python string
operations (`strip`, `split`, substring tests, the fixed regular
expressions used by the source) are implemented as executable Lean
functions that follow the semantics of the CPython `str` and `re`
libraries for the concrete patterns appearing in the source.
-/

/-- Python `\s` (whitespace) for the characters that occur in this
development: ASCII whitespace plus the no-break and ideographic spaces. -/
def isSpaceChar (c : Char) : Bool :=
  c = ' ' || c = '\t' || c = '\n' || c = '\r' ||
  c = Char.ofNat 0x0b || c = Char.ofNat 0x0c ||
  c = Char.ofNat 0xa0 || c = Char.ofNat 0x3000

/-- ASCII digit, Python `[0-9]` and `\d` on the inputs considered here. -/
def isDigitChar (c : Char) : Bool :=
  '0' ≤ c && c ≤ '9'

/-- Python `\w` restricted to the character ranges used by the source:
ASCII alphanumerics, underscore, and CJK unified ideographs. -/
def isWordChar (c : Char) : Bool :=
  c.isAlphanum || c = '_' || (0x4E00 ≤ c.val && c.val ≤ 0x9FFF)

/-- Python `str.strip()`: drop whitespace from both ends. -/
def pyStrip (s : List Char) : List Char :=
  ((s.dropWhile isSpaceChar).reverse.dropWhile isSpaceChar).reverse

/-- Python `needle in haystack` substring test. -/
def containsSub (hay needle : List Char) : Bool :=
  hay.tails.any (fun t => needle.isPrefixOf t)

/-- Python `s.split("\n")` (the separator is a single newline). -/
def splitNl : List Char → List (List Char)
  | [] => [[]]
  | c :: t =>
    if c = '\n' then [] :: splitNl t
    else
      match splitNl t with
      | [] => [[c]]
      | p :: ps => (c :: p) :: ps

/-- Python `s.split("##")`: cut at the leftmost, non-overlapping
occurrences of the two-character separator. -/
def splitHH : List Char → List (List Char)
  | [] => [[]]
  | [c] => [[c]]
  | c :: d :: t =>
    if c = '#' && d = '#' then [] :: splitHH t
    else
      match splitHH (d :: t) with
      | [] => [[c]]
      | p :: ps => (c :: p) :: ps

/-- Python `"\n".join(parts)`. -/
def joinNl : List (List Char) → List Char
  | [] => []
  | [x] => x
  | x :: rest => x ++ '\n' :: joinNl rest

/-- Python `"\n\n".join(parts)`. -/
def joinDoubleNl : List (List Char) → List Char
  | [] => []
  | [x] => x
  | x :: rest => x ++ '\n' :: '\n' :: joinDoubleNl rest

/-- `s` contains no occurrence of the substring `"##"`. -/
def noHH : List Char → Bool
  | [] => true
  | [_] => true
  | c :: d :: t => !(c = '#' && d = '#') && noHH (d :: t)

/-- Split a whitespace run at its last newline: if `w = a ++ '\n' :: b`
with `b` newline-free, return `some (a, b)`, else `none`. -/
def splitLastNl : List Char → Option (List Char × List Char)
  | [] => none
  | c :: t =>
    match splitLastNl t with
    | some (a, b) => some (c :: a, b)
    | none => if c = '\n' then some ([], t) else none

/-! ## Line Classifier (document_processor.py, lines 208-233) -/

/-- The fixed heading keyword list of `is_heading`. -/
def heading_keywords : List (List Char) :=
  ["目录", "章节", "节", "第", "摘要", "引言", "结论", "参考", "概述",
   "总结", "要点", "重点"].map String.toList

/-- Python `re.match(r"^[0-9]+[、. ]", text)`: one or more ASCII digits
followed by an ideographic comma, an ASCII period, or a space.  The digit
run is maximal (a shorter run would put a digit where the separator class
is required, so backtracking cannot change the outcome). -/
def matchesNumHeading : List Char → Bool
  | [] => false
  | c :: t => isDigitChar c && numHeadingTail t
where
  numHeadingTail : List Char → Bool
    | [] => false
    | c :: t =>
      if isDigitChar c then numHeadingTail t
      else c = '、' || c = '.' || c = ' '

/-- `DocumentProcessor.is_heading` (lines 208-217). -/
def is_heading (text : List Char) : Bool :=
  if (text.length < 50 && heading_keywords.any (fun kw => containsSub text kw)) ||
     (text.length < 30 && matchesNumHeading text) then
    true
  else
    false

/-- The fixed non-concept keyword list of `is_concept_content`. -/
def non_concept_keywords : List (List Char) :=
  ["例", "例子", "示例", "例题", "习题", "练习", "作业", "课后练习",
   "思考题", "实验", "实训"].map String.toList

/-- Python `re.match(r"^\d+\.\s", text)`: one or more digits, a period,
then one whitespace character. -/
def matchesExercise : List Char → Bool
  | [] => false
  | c :: t => isDigitChar c && exerciseTail t
where
  exerciseTail : List Char → Bool
    | [] => false
    | c :: t =>
      if isDigitChar c then exerciseTail t
      else c = '.' && (match t with
                       | d :: _ => isSpaceChar d
                       | [] => false)

/-- `DocumentProcessor.is_concept_content` (lines 219-233). -/
def is_concept_content (text : List Char) : Bool :=
  if non_concept_keywords.any (fun kw => kw.isPrefixOf (pyStrip text)) then
    false
  else if non_concept_keywords.any (fun kw => containsSub text kw) && !is_heading text then
    false
  else if matchesExercise (pyStrip text) &&
          !containsSub text "重点".toList && !containsSub text "要点".toList then
    false
  else
    true

/-! ## Content Cleaner (document_processor.py, lines 188-206)

`clean_content` applies four `re.sub` rewrites then `str.strip()`.  Each
fixed pattern is implemented below with the leftmost, greedy-with-
backtracking semantics of the CPython `re` engine, specialised to that
pattern.  The scans are written with a fuel parameter so that they are
structurally recursive (and hence compute inside the kernel); every
recursive call strictly shrinks the scanned text (see the length lemmas
further down), so the fuel `length + 1` supplied by the wrappers is never
exhausted. -/

/-- `\b` holds before a word character when the previous character (if
any) is not a word character. -/
def boundaryBefore : Option Char → Bool
  | none => true
  | some p => !isWordChar p

/-- `\b` holds after a word character when the following text is empty or
begins with a non-word character. -/
def nonWordStart : List Char → Bool
  | [] => true
  | c :: _ => !isWordChar c

/-- Attempted match of `^\s*\d+\s*$` (MULTILINE) at a line start.
Leading `\s*` must be the maximal whitespace run (anything shorter puts a
whitespace character where `\d` is required), `\d+` the maximal digit
run, and the trailing greedy `\s*` backtracks until `$` holds, i.e. to
the end of the text or the last newline inside the trailing run.
On success, returns the text remaining from the `$` position (so either
`[]`, or `'\n' :: _` when `$` matched before a newline) together with
whether the resumption position is itself a line start (the regex engine
resumes scanning at the match end, and `^` holds there when the character
just before it was a newline). -/
def p1MatchAt (s : List Char) : Option (Bool × List Char) :=
  if ((s.dropWhile isSpaceChar).takeWhile isDigitChar).isEmpty then none
  else
    if (((s.dropWhile isSpaceChar).dropWhile isDigitChar).dropWhile isSpaceChar).isEmpty then
      some (false, [])
    else
      match splitLastNl (((s.dropWhile isSpaceChar).dropWhile isDigitChar).takeWhile isSpaceChar) with
      | some (a, b) =>
        some (decide (a.getLast? = some '\n'),
              '\n' :: (b ++ ((s.dropWhile isSpaceChar).dropWhile isDigitChar).dropWhile isSpaceChar))
      | none => none

/-- One full `re.sub(r'^\s*\d+\s*$', '', text, flags=re.MULTILINE)` scan.
`atLS` records whether the current position is a line start (`^`).
When no match is possible at the current line start, scanning advances to
the position after the next newline (no other position satisfies `^`). -/
def p1GoF : Nat → List Char → Bool → List Char
  | 0, s, _ => s
  | fuel + 1, s, atLS =>
    match (if atLS then p1MatchAt s else none) with
    | some (ls, rest) => p1GoF fuel rest ls
    | none =>
      match s.dropWhile (fun c => !(c = '\n')) with
      | [] => s
      | _ :: r => s.takeWhile (fun c => !(c = '\n')) ++ '\n' :: p1GoF fuel r true

/-- `re.sub(r'\bP\d+\b', '', text)`: drop every maximal `P`+digits token
delimited by word boundaries.  `prev` is the character before the current
scan position; after a removed token the scan resumes with the token's
last digit as boundary context, exactly as the engine rescans the
original text. -/
def p2GoF : Nat → Option Char → List Char → List Char
  | 0, _, s => s
  | fuel + 1, prev, s =>
    match s with
    | [] => []
    | c :: t =>
      if c = 'P' && boundaryBefore prev then
        match (t.takeWhile isDigitChar).getLast? with
        | some dl =>
          if nonWordStart (t.dropWhile isDigitChar) then
            p2GoF fuel (some dl) (t.dropWhile isDigitChar)
          else c :: p2GoF fuel (some c) t
        | none => c :: p2GoF fuel (some c) t
      else c :: p2GoF fuel (some c) t

/-- The alternation `page|p|pg|pag|pagina`, in the source's order. -/
def p3Keywords : List (List Char) :=
  ["page", "p", "pg", "pag", "pagina"].map String.toList

/-- Case-insensitive literal prefix match; returns the remainder. -/
def ciPrefixDrop : List Char → List Char → Option (List Char)
  | [], s => some s
  | _ :: _, [] => none
  | k :: kt, c :: ct => if c.toLower = k then ciPrefixDrop kt ct else none

/-- `\s*[\.:]*\s*\d+\b` after a matched keyword.  The three starred runs
use pairwise disjoint character classes, so the greedy maximal runs are
the only possible parse.  Returns the last digit (boundary context for
the continued scan) and the remainder. -/
def p3TailMatch (s : List Char) : Option (Char × List Char) :=
  match ((((s.dropWhile isSpaceChar).dropWhile (fun c => c = '.' || c = ':')).dropWhile isSpaceChar).takeWhile isDigitChar).getLast? with
  | none => none
  | some dl =>
    if nonWordStart ((((s.dropWhile isSpaceChar).dropWhile (fun c => c = '.' || c = ':')).dropWhile isSpaceChar).dropWhile isDigitChar) then
      some (dl, (((s.dropWhile isSpaceChar).dropWhile (fun c => c = '.' || c = ':')).dropWhile isSpaceChar).dropWhile isDigitChar)
    else
      none

/-- Try the alternation's branches in order at a fixed position. -/
def p3TryAlts : List (List Char) → List Char → Option (Char × List Char)
  | [], _ => none
  | kw :: rest, s =>
    match ciPrefixDrop kw s with
    | some afterKw =>
      match p3TailMatch afterKw with
      | some r => some r
      | none => p3TryAlts rest s
    | none => p3TryAlts rest s

/-- `re.sub(r'(?i)\b(?:page|p|pg|pag|pagina)\s*[\.:]*\s*\d+\b', '', text)`.
Every branch of the alternation starts with a word character, so the
leading `\b` reduces to `boundaryBefore`. -/
def p3GoF : Nat → Option Char → List Char → List Char
  | 0, _, s => s
  | fuel + 1, prev, s =>
    match s with
    | [] => []
    | c :: t =>
      if boundaryBefore prev then
        match p3TryAlts p3Keywords (c :: t) with
        | some (dl, rest) => p3GoF fuel (some dl) rest
        | none => c :: p3GoF fuel (some c) t
      else c :: p3GoF fuel (some c) t

/-- `re.sub(r'\n\s*\n', '\n', text)`: a match is a newline, then the
whitespace run after it up to and including its last newline (greedy
`\s*` backtracks to the latest newline in the run); replaced by one
newline, scanning resumes right after the consumed final newline. -/
def p4GoF : Nat → List Char → List Char
  | 0, s => s
  | fuel + 1, s =>
    match s with
    | [] => []
    | c :: t =>
      if c = '\n' then
        match splitLastNl (t.takeWhile isSpaceChar) with
        | some (_, b) => '\n' :: p4GoF fuel (b ++ t.dropWhile isSpaceChar)
        | none => c :: p4GoF fuel t
      else c :: p4GoF fuel t

/-- Pass 1: `re.sub(r'^\s*\d+\s*$', '', text, flags=re.MULTILINE)`. -/
def p1Sub (s : List Char) : List Char := p1GoF (s.length + 1) s true

/-- Pass 2: `re.sub(r'\bP\d+\b', '', text)`. -/
def p2Sub (s : List Char) : List Char := p2GoF (s.length + 1) none s

/-- Pass 3: the case-insensitive page-label removal. -/
def p3Sub (s : List Char) : List Char := p3GoF (s.length + 1) none s

/-- Pass 4: `re.sub(r'\n\s*\n', '\n', text)`. -/
def p4Sub (s : List Char) : List Char := p4GoF (s.length + 1) s

/-- `DocumentProcessor.clean_content` (lines 188-206): the four `re.sub`
passes in order, then `str.strip()`.  The `if not text` guard maps both
`None` and `""` to `""`; the empty list covers both here. -/
def clean_content (text : List Char) : List Char :=
  if text.isEmpty then []
  else pyStrip (p4Sub (p3Sub (p2Sub (p1Sub text))))

/-! ## Section Builder (document_processor.py, lines 28-101, 103-186,
237-268, 270-338)

A section is a `{'title': ..., 'content': [...]}` dict.  The builder
state is the growing section list together with the optional
`current_section`; the page-description builders additionally thread the
per-page `skip_section` latch. -/

structure Section where
  title : List Char
  content : List (List Char)
deriving DecidableEq, Repr

abbrev BuilderState := List Section × Option Section

/-- Lines 73-86 (identically 162-175): open/extend a section for a
non-skipped stripped line `sl`. -/
def sectionStep (secs : List Section) (cur : Option Section) (sl : List Char) : BuilderState :=
  if cur.isNone || is_heading sl then
    let secs' :=
      match cur with
      | some c => if c.content.isEmpty then secs else secs ++ [c]
      | none => secs
    if is_concept_content sl then (secs', some ⟨sl, []⟩) else (secs', none)
  else
    match cur with
    | some c => if is_concept_content sl then (secs, some ⟨c.title, c.content ++ [sl]⟩) else (secs, cur)
    | none => (secs, cur)

/-- Lines 52-86 (identically 142-175): the per-line body of the two
page-description builders, including the `skip_section` latch. -/
def pageLineStep (st : List Section × Option Section × Bool) (line : List Char) : List Section × Option Section × Bool :=
  let (secs, cur, skip) := st
  let sl := pyStrip line
  if sl.isEmpty then st
  else if is_heading sl && !is_concept_content sl then (secs, none, true)
  else if skip then
    if is_heading sl then
      if is_concept_content sl then
        let (s', c') := sectionStep secs cur sl
        (s', c', false)
      else st
    else st
  else
    let (s', c') := sectionStep secs cur sl
    (s', c', skip)

/-- Lines 50-86: one page's text processing; `skip_section` is
initialised to `False` at the start of every page. -/
def processPageLines (st : BuilderState) (lines : List (List Char)) : BuilderState :=
  let r := lines.foldl pageLineStep (st.1, st.2, false)
  (r.1, r.2.1)

/-- Lines 93-95 (and 177-179, 255-256, 266-267 etc.): close the final
section, kept only when its content is non-empty. -/
def finalizeSections (st : BuilderState) : List Section :=
  match st.2 with
  | some c => if c.content.isEmpty then st.1 else st.1 ++ [c]
  | none => st.1

/-- `f"第 {page_num + 1} 页解析失败"` (line 91). -/
def pageFailLine (n : Nat) : List Char :=
  "第 ".toList ++ (Nat.repr (n + 1)).toList ++ " 页解析失败".toList

/-- Lines 39-91: one page of the primary reader.  `Except.error` models
`page.get_text` raising (caught at line 87: a synthetic failure line is
appended to the current section, creating a `解析错误` section if none is
open); `Except.ok text` models successful extraction, processed when the
text is non-empty. -/
def pymupdfPageFold (st : BuilderState) (pageNum : Nat) (page : Except Unit (List Char)) : BuilderState :=
  match page with
  | .ok text =>
    if text.isEmpty then st
    else processPageLines st (splitNl (clean_content text))
  | .error _ =>
    match st.2 with
    | none => (st.1, some ⟨"解析错误".toList, [pageFailLine pageNum]⟩)
    | some c => (st.1, some ⟨c.title, c.content ++ [pageFailLine pageNum]⟩)

def pymupdfPagesGo : BuilderState → Nat → List (Except Unit (List Char)) → BuilderState
  | st, _, [] => st
  | st, n, p :: rest => pymupdfPagesGo (pymupdfPageFold st n p) (n + 1) rest

structure PDocMeta where
  pages : Nat
  author : List Char
deriving DecidableEq, Repr

structure PDoc where
  metadata : PDocMeta
  sections : List Section
deriving DecidableEq, Repr

/-- `DocumentProcessor.extract_with_pymupdf` (lines 28-101).  The input
models what the reader yields for the file: `none` when `fitz.open`
itself raises (the outer `except` returns `None`), otherwise the page
outcomes and the optional author metadata. -/
def extract_with_pymupdf (f : Option (List (Except Unit (List Char)) × Option (List Char))) : Option PDoc :=
  match f with
  | none => none
  | some (pages, author) =>
    some ⟨⟨pages.length, author.getD "Unknown".toList⟩,
          finalizeSections (pymupdfPagesGo ([], none) 0 pages)⟩

/-- One page of the secondary reader (lines 117-133): a successful
`extract_text`, a colour-space error with the `extract_text_simple`
second-level fallback (which may itself fail, yielding `""`), or any
other per-page error (yielding `""`). -/
inductive PlumberPage where
  | ok (text : List Char)
  | colorErr (simple : Option (List Char))
  | otherErr
deriving DecidableEq, Repr

def plumberPageText : PlumberPage → List Char
  | .ok t => t
  | .colorErr (some t) => t
  | .colorErr none => []
  | .otherErr => []

def plumberPageFold (st : BuilderState) (page : PlumberPage) : BuilderState :=
  let text := plumberPageText page
  if text.isEmpty then st
  else processPageLines st (splitNl (clean_content text))

/-- The reader outcomes for one PDF file, as consumed by the two
low-level readers. `secondary = none` models `pdfplumber.open` raising
(the outer `except` at line 183 falls back to the primary reader). -/
structure PdfFile where
  primary : Option (List (Except Unit (List Char)) × Option (List Char))
  secondary : Option (List PlumberPage × Option (List Char))

/-- `DocumentProcessor.extract_with_pdfplumber` (lines 103-186). -/
def extract_with_pdfplumber (f : PdfFile) : Option PDoc :=
  match f.secondary with
  | none => extract_with_pymupdf f.primary
  | some (pages, author) =>
    some ⟨⟨pages.length, author.getD "Unknown".toList⟩,
          finalizeSections (pages.foldl plumberPageFold ([], none))⟩

/-- Python truthiness of `result['sections'][0].get('content')`. -/
def firstHasContent (d : PDoc) : Bool :=
  match d.sections with
  | [] => false
  | s :: _ => !s.content.isEmpty

/-- `DocumentProcessor.extract_pdf_content` (lines 12-26): prefer the
primary reader unless it returned `None`, no sections, or a first
section with empty content. -/
def extract_pdf_content (f : PdfFile) : Option PDoc :=
  match extract_with_pymupdf f.primary with
  | some d =>
    if !d.sections.isEmpty && firstHasContent d then some d
    else extract_with_pdfplumber f
  | none => extract_with_pdfplumber f

/-- A Word paragraph as consumed by `extract_docx_content`:
its text and whether `para.style.name.startswith('Heading')`. -/
structure Paragraph where
  text : List Char
  styleHeading : Bool
deriving DecidableEq, Repr

structure SimpleDoc where
  sections : List Section
deriving DecidableEq, Repr

/-- The loop body of `extract_docx_content` (lines 244-264).  Note that a
newly opened section's content starts as `[text]` - the heading text
itself is the first content line. -/
def docxStep (st : BuilderState) (p : Paragraph) : BuilderState :=
  let t := pyStrip p.text
  if t.isEmpty then st
  else if p.styleHeading || is_heading t then
    if !is_concept_content t then (st.1, none)
    else
      match st.2 with
      | some c => if c.content.isEmpty then (st.1, some ⟨t, [t]⟩) else (st.1 ++ [c], some ⟨t, [t]⟩)
      | none => (st.1, some ⟨t, [t]⟩)
  else
    match st.2 with
    | some c => if is_concept_content t then (st.1, some ⟨c.title, c.content ++ [t]⟩) else st
    | none => st

/-- `DocumentProcessor.extract_docx_content` (lines 237-268); the
metadata dict stays empty and is omitted. -/
def extract_docx_content (paras : List Paragraph) : SimpleDoc :=
  ⟨finalizeSections (paras.foldl docxStep ([], none))⟩

/-- A slide as consumed by `extract_pptx_content`: the optional title
shape's text and the texts of the remaining shapes in order. -/
structure Slide where
  titleShape : Option (List Char)
  shapes : List (List Char)
deriving DecidableEq, Repr

/-- The structural shape loop of `extract_pptx_content`
(lines 286-307): like the page-description builder, but per shape and
with no skip latch; a new section's content starts empty. -/
def pptxShapeStep (st : BuilderState) (raw : List Char) : BuilderState :=
  let t := pyStrip raw
  if t.isEmpty then st
  else if is_heading t then
    if !is_concept_content t then (st.1, none)
    else
      match st.2 with
      | some c => if c.content.isEmpty then (st.1, some ⟨t, []⟩) else (st.1 ++ [c], some ⟨t, []⟩)
      | none => (st.1, some ⟨t, []⟩)
  else
    match st.2 with
    | some c => if is_concept_content t then (st.1, some ⟨c.title, c.content ++ [t]⟩) else st
    | none => st

def pptxSlideFold (st : BuilderState) (s : Slide) : BuilderState :=
  s.shapes.foldl pptxShapeStep st

/-- Lines 316-321: the fallback slide title. -/
def pptxFallbackTitle (i : Nat) (s : Slide) : List Char :=
  match s.titleShape with
  | some ts => if (pyStrip ts).isEmpty then "幻灯片 ".toList ++ (Nat.repr (i + 1)).toList else pyStrip ts
  | none => "幻灯片 ".toList ++ (Nat.repr (i + 1)).toList

/-- Lines 323-329: concept-filtered shape texts of one slide. -/
def pptxFallbackContent (s : Slide) : List (List Char) :=
  s.shapes.filterMap fun raw =>
    let t := pyStrip raw
    if t.isEmpty then none
    else if is_concept_content t then some t else none

/-- Lines 314-336: one fallback section per slide with non-empty
concept-filtered content. -/
def pptxFallbackGo : Nat → List Slide → List Section
  | _, [] => []
  | i, s :: rest =>
    if (pptxFallbackContent s).isEmpty then pptxFallbackGo (i + 1) rest
    else ⟨pptxFallbackTitle i s, pptxFallbackContent s⟩ :: pptxFallbackGo (i + 1) rest

/-- `DocumentProcessor.extract_pptx_content` (lines 270-338). -/
def extract_pptx_content (slides : List Slide) : SimpleDoc :=
  let secs := finalizeSections (slides.foldl pptxSlideFold ([], none))
  if secs.isEmpty then ⟨pptxFallbackGo 0 slides⟩ else ⟨secs⟩

/-! ## Tree Assembler (document_processor.py, lines 341-352) -/

structure KNode where
  title : List Char
  content : List Char
  children : List KNode
deriving Repr

/-- `DocumentProcessor.generate_knowledge_tree` (lines 341-352). -/
def generate_knowledge_tree (documents : List SimpleDoc) : List KNode :=
  documents.foldl
    (fun tree doc =>
      doc.sections.foldl
        (fun tree s => tree ++ [⟨s.title, joinNl s.content, []⟩]) tree)
    []

/-! ## Summarisation boundary (ai_processor.py, lines 18-33 and 135-165) -/

/-- A tree node's `content` field is dynamically either a list of lines
or a string (`isinstance(node['content'], list)`, line 27). -/
inductive AIContent where
  | lines (l : List (List Char))
  | str (s : List Char)
deriving DecidableEq, Repr

def aiContentText : AIContent → List Char
  | .lines l => joinNl l
  | .str s => s

structure AINode where
  title : List Char
  content : AIContent
  children : List AINode
deriving Repr

/-- `AIProcessor.prepare_content_for_ai` (lines 18-33): each node becomes
`"## " + title + "\n" + content`, joined with `"\n\n"`. -/
def prepare_content_for_ai (tree : List AINode) : List Char :=
  joinDoubleNl (tree.map fun n => "## ".toList ++ n.title ++ '\n' :: aiContentText n.content)

/-- One piece of the `"##"` split in `parse_ai_response` (lines
145-155): pieces with empty strip are skipped, otherwise the first line
(stripped) becomes the title and the remaining lines (joined and
stripped) the content. -/
def parsePiece (sec : List Char) : Option AINode :=
  if (pyStrip sec).isEmpty then none
  else
    match splitNl (pyStrip sec) with
    | [] => some ⟨"未命名章节".toList, .str [], []⟩
    | l0 :: rest =>
      some ⟨pyStrip l0, .str (if rest.isEmpty then [] else pyStrip (joinNl rest)), []⟩

/-- `AIProcessor.parse_ai_response` (lines 135-165): split on `"##"`,
keep pieces with non-empty strip, and fall back to a single wrapper node
when nothing parsed. -/
def parse_ai_response (resp : List Char) : List AINode :=
  let tree := (splitHH resp).filterMap parsePiece
  if tree.isEmpty then [⟨"AI总结结果".toList, .str resp, []⟩] else tree

/-- The page-description builder applied to one page's already-split
line sequence, starting from an empty document: a single-page run of the
loop at lines 50-95 including the final-section close. -/
def runLines (lines : List (List Char)) : List Section :=
  finalizeSections (processPageLines ([], none) lines)

/-! ## Claim-specific definitions -/

/-- The line sequence fixed by claim C1. -/
def c1Input : List (List Char) :=
  ["引言", "这是重要内容。", "例1：跳过这个", "结论：总结如下，这是关键。"].map String.toList

/-- The numbered-section pattern as claim C6 words it:
`^\d+[、.．]\s` - digits, then a separator drawn from the ideographic
comma, the ASCII period or the FULLWIDTH period, then one whitespace
character.  Stated only for comparison with the source's
`matchesNumHeading`; it is not the source's pattern. -/
def specNumPattern : List Char → Bool
  | [] => false
  | c :: t => isDigitChar c && specNumTail t
where
  specNumTail : List Char → Bool
    | [] => false
    | c :: t =>
      if isDigitChar c then specNumTail t
      else (c = '、' || c = '.' || c = '．') &&
           (match t with
            | d :: _ => isSpaceChar d
            | [] => false)

/-- The heading predicate exactly as claim C6 states it (keyword clause
unchanged, numbered clause per `specNumPattern`).  For comparison with
`is_heading` only. -/
def spec_is_heading (text : List Char) : Bool :=
  (text.length < 50 && heading_keywords.any (fun kw => containsSub text kw)) ||
  (text.length < 30 && specNumPattern text)

/-- The pieces that Python `split("##")` recovers from the prepared
summarisation text: every body except the last still carries the
`"\n\n"` joiner consumed from the right. -/
def withSep : List (List Char) → List (List Char)
  | [] => []
  | [b] => [b]
  | b :: rest => (b ++ ['\n', '\n']) :: withSep rest

/-! ## Support lemmas -/

theorem dropWhile_length_le (p : Char → Bool) :
    ∀ l : List Char, (l.dropWhile p).length ≤ l.length := by
  intro l
  induction l with
  | nil => simp [List.dropWhile]
  | cons c t ih =>
    by_cases h : p c <;> simp [List.dropWhile, h] <;> omega

theorem splitLastNl_eq :
    ∀ {w a b : List Char}, splitLastNl w = some (a, b) → w = a ++ '\n' :: b := by
  intro w
  induction w with
  | nil => intro a b h; simp [splitLastNl] at h
  | cons c t ih =>
    intro a b h
    simp only [splitLastNl] at h
    cases hs : splitLastNl t with
    | some ab =>
      obtain ⟨a', b'⟩ := ab
      rw [hs] at h
      simp at h
      obtain ⟨ha, hb⟩ := h
      subst ha hb
      simpa using congrArg (c :: ·) (ih hs)
    | none =>
      rw [hs] at h
      by_cases hc : c = '\n'
      · simp [hc] at h
        obtain ⟨ha, hb⟩ := h
        subst ha hb
        simp [hc]
      · simp [hc] at h

theorem foldl_snoc_sections (mk : Section → KNode) :
    ∀ (secs : List Section) (acc : List KNode),
      secs.foldl (fun t s => t ++ [mk s]) acc = acc ++ secs.map mk := by
  intro secs
  induction secs with
  | nil => intro acc; simp
  | cons s rest ih =>
    intro acc
    simp only [List.foldl_cons, List.map_cons]
    rw [ih]
    simp

/-! ## Claim C1 -/

/-- **C1** (counterexample): on the fixed four-line sequence the
page-description Section Builder emits exactly ONE section,
`{引言, [这是重要内容。]}`, not two as the claim states: the final
heading `结论：…` opens a section that closes with empty content and is
therefore never emitted, and the example line `例1：跳过这个` is dropped
by the concept filter.  The claim's required section count of 2 is
refuted. -/
theorem c1_builder_counterexample :
    runLines c1Input = [⟨"引言".toList, ["这是重要内容。".toList]⟩] ∧
    (runLines c1Input).length ≠ 2 := by
  constructor
  · decide
  · decide

/-- **C1** (amended): the builder emits exactly one section,
`{title: 引言, content: [这是重要内容。]}`; consequently the example line
appears in no emitted section's content and no `结论…` section is
emitted. -/
theorem c1_builder_sections :
    runLines c1Input = [⟨"引言".toList, ["这是重要内容。".toList]⟩] := by
  decide

/-! ## Claim C5 -/

/-- **C5**: `generate_knowledge_tree` emits one node per section, in
document order then section order, with `title` the section title,
`content` the newline-join of the section's content lines, and empty
`children`. -/
theorem c5_generate_knowledge_tree :
    ∀ documents : List SimpleDoc,
      generate_knowledge_tree documents =
        (documents.map (fun d =>
          d.sections.map (fun s => KNode.mk s.title (joinNl s.content) []))).join := by
  have hgen : ∀ (documents : List SimpleDoc) (acc : List KNode),
      documents.foldl
        (fun tree doc => doc.sections.foldl
          (fun tree s => tree ++ [KNode.mk s.title (joinNl s.content) []]) tree) acc =
      acc ++ (documents.map (fun d =>
        d.sections.map (fun s => KNode.mk s.title (joinNl s.content) []))).join := by
    intro documents
    induction documents with
    | nil => intro acc; simp
    | cons d rest ih =>
      intro acc
      simp only [List.foldl_cons, List.map_cons, List.join]
      rw [foldl_snoc_sections (fun s => KNode.mk s.title (joinNl s.content) []) d.sections acc, ih]
      simp
  intro documents
  unfold generate_knowledge_tree
  rw [hgen]
  simp

/-! ## Claim C6 -/

theorem containsSub_iff_infix {hay n : List Char} :
    containsSub hay n = true ↔ n <:+: hay := by
  unfold containsSub
  rw [List.any_eq_true, List.infix_iff_prefix_suffix]
  constructor
  · rintro ⟨t, ht, hp⟩
    exact ⟨t, List.isPrefixOf_iff_prefix.mp hp, (List.mem_tails t hay).mp ht⟩
  · rintro ⟨t, hp, hs⟩
    exact ⟨t, (List.mem_tails t hay).mpr hs, List.isPrefixOf_iff_prefix.mpr hp⟩

theorem is_heading_eq_cond (s : List Char) :
    is_heading s =
      ((s.length < 50 && heading_keywords.any (fun kw => containsSub s kw)) ||
       (s.length < 30 && matchesNumHeading s)) := by
  unfold is_heading
  split <;> simp_all

/-- **C6** (counterexample): the numbered-section clause of `is_heading`
is `^[0-9]+[、. ]` - no trailing whitespace is required after the
separator (and the separator set has a space but no fullwidth period).
On `"1、x"` the source predicate answers `true` while the claim's
pattern `^\d+[、.．]\s` does not match, so the claimed if-and-only-if
characterisation fails. -/
theorem c6_heading_pattern_counterexample :
    is_heading "1、x".toList = true ∧ spec_is_heading "1、x".toList = false := by
  decide

/-- **C6** (amended): `is_heading(text)` is true iff
(`length < 50` and a heading keyword occurs in `text`) or (`length < 30`
and `text` matches `^[0-9]+[、. ]`, i.e. digits followed by an
ideographic comma, an ASCII period, or a space, with no further
requirement); and `is_heading(x)` is false for EVERY `x` with
`length(x) ≥ 50` (pattern match or not, since the numbered clause also
demands `length < 30`). -/
theorem c6_heading_characterisation :
    ∀ s : List Char,
      (is_heading s = true ↔
        ((s.length < 50 ∧ ∃ kw ∈ heading_keywords, kw <:+: s) ∨
         (s.length < 30 ∧ matchesNumHeading s = true))) ∧
      (50 ≤ s.length → is_heading s = false) := by
  intro s
  constructor
  · rw [is_heading_eq_cond]
    simp only [Bool.or_eq_true, Bool.and_eq_true, decide_eq_true_eq, List.any_eq_true,
      containsSub_iff_infix]
  · intro h50
    rw [is_heading_eq_cond]
    have h1 : ¬s.length < 50 := by omega
    have h2 : ¬s.length < 30 := by omega
    simp [h1, h2]

/-- Witness for C6's amended theorem: a 50-character text is classified
as a non-heading. -/
theorem c6_heading_characterisation_witness :
    is_heading (List.replicate 50 'a') = false :=
  (c6_heading_characterisation (List.replicate 50 'a')).2 (by simp)

/-! ## Claim C8 -/

theorem isSpaceChar_cases {c : Char} (h : isSpaceChar c = true) :
    c = ' ' ∨ c = '\t' ∨ c = '\n' ∨ c = '\r' ∨ c = Char.ofNat 0x0b ∨
    c = Char.ofNat 0x0c ∨ c = Char.ofNat 0xa0 ∨ c = Char.ofNat 0x3000 := by
  unfold isSpaceChar at h
  simp only [Bool.or_eq_true, decide_eq_true_eq] at h
  tauto

theorem pyStrip_eq_nil_of_all_space {s : List Char}
    (h : ∀ c ∈ s, isSpaceChar c = true) : pyStrip s = [] := by
  unfold pyStrip
  have h1 : s.dropWhile isSpaceChar = [] := by
    induction s with
    | nil => rfl
    | cons c t ih =>
      rw [List.dropWhile_cons, if_pos (h c (by simp))]
      exact ih (fun c hc => h c (by simp [hc]))
  rw [h1]
  rfl

theorem containsSub_false_of_all_space {s kw : List Char}
    (hs : ∀ c ∈ s, isSpaceChar c = true)
    (hkw : ∃ c ∈ kw, isSpaceChar c = false) : containsSub s kw = false := by
  by_contra hc
  rw [Bool.not_eq_false] at hc
  have hinf : kw <:+: s := containsSub_iff_infix.mp hc
  obtain ⟨c, hck, hcs⟩ := hkw
  have hmem : c ∈ s := hinf.sublist.subset hck
  rw [hs c hmem] at hcs
  exact absurd hcs (by simp)

theorem matchesNumHeading_false_of_all_space {s : List Char}
    (h : ∀ c ∈ s, isSpaceChar c = true) : matchesNumHeading s = false := by
  cases s with
  | nil => rfl
  | cons c t =>
    have hc := h c (by simp)
    have hd : isDigitChar c = false := by
      rcases isSpaceChar_cases hc with h' | h' | h' | h' | h' | h' | h' | h' <;>
        subst h' <;> decide
    simp [matchesNumHeading, hd]

theorem is_heading_false_of_all_space {s : List Char}
    (h : ∀ c ∈ s, isSpaceChar c = true) : is_heading s = false := by
  rw [is_heading_eq_cond]
  have hall : ∀ kw ∈ heading_keywords, ∃ c ∈ kw, isSpaceChar c = false := by decide
  have hkwds : heading_keywords.any (fun kw => containsSub s kw) = false := by
    rw [List.any_eq_false]
    intro kw hkw
    simp [containsSub_false_of_all_space h (hall kw hkw)]
  rw [hkwds, matchesNumHeading_false_of_all_space h]
  simp

theorem is_concept_content_true_of_all_space {s : List Char}
    (h : ∀ c ∈ s, isSpaceChar c = true) : is_concept_content s = true := by
  unfold is_concept_content
  have hstrip := pyStrip_eq_nil_of_all_space h
  have hne : ∀ kw ∈ non_concept_keywords, ∃ c ∈ kw, isSpaceChar c = false := by decide
  have h1 : non_concept_keywords.any (fun kw => kw.isPrefixOf (pyStrip s)) = false := by
    rw [hstrip, List.any_eq_false]
    intro kw hkw
    obtain ⟨c, hck, _⟩ := hne kw hkw
    cases kw with
    | nil => simp at hck
    | cons a b => simp [List.isPrefixOf]
  have h2 : non_concept_keywords.any (fun kw => containsSub s kw) = false := by
    rw [List.any_eq_false]
    intro kw hkw
    simp [containsSub_false_of_all_space h (hne kw hkw)]
  have h3 : matchesExercise (pyStrip s) = false := by rw [hstrip]; rfl
  simp [h1, h2, h3]

/-- **C8** (counterexample): on the empty string the predicates do not
raise, and `is_heading` answers false, but `is_concept_content` returns
TRUE, contradicting the claim that such input is classified as "not
concept content".  (For `None` the claim also fails in Python: both
predicates raise - `len(None)`, `None.strip()` - instead of
classifying.) -/
theorem c8_blank_counterexample :
    is_heading ([] : List Char) = false ∧ is_concept_content ([] : List Char) = true := by
  decide

/-- **C8** (amended): on empty or whitespace-only input the (total)
predicates do not raise; `is_heading` answers false but
`is_concept_content` answers true; the unit is nonetheless dropped
silently, because every Section Builder skips units whose stripped text
is empty before consulting the predicates, leaving its state unchanged.
(`None` never reaches the predicates from the builders; passed directly,
the Python predicates raise.) -/
theorem c8_blank_input_handling :
    ∀ s : List Char, (∀ c ∈ s, isSpaceChar c = true) →
      is_heading s = false ∧ is_concept_content s = true ∧
      (∀ st, pageLineStep st s = st) ∧
      (∀ st p, docxStep st ⟨s, p⟩ = st) ∧
      (∀ st, pptxShapeStep st s = st) := by
  intro s h
  have hstrip := pyStrip_eq_nil_of_all_space h
  refine ⟨is_heading_false_of_all_space h, is_concept_content_true_of_all_space h, ?_, ?_, ?_⟩
  · intro st
    obtain ⟨a, b, k⟩ := st
    simp [pageLineStep, hstrip]
  · intro st p
    simp [docxStep, hstrip]
  · intro st
    simp [pptxShapeStep, hstrip]

/-- Witness for C8's amended theorem at the whitespace-only string
`"   "`. -/
theorem c8_blank_input_handling_witness :
    is_heading "   ".toList = false ∧ is_concept_content "   ".toList = true :=
  ⟨(c8_blank_input_handling "   ".toList (by decide)).1,
   (c8_blank_input_handling "   ".toList (by decide)).2.1⟩

/-! ## Claim C3 -/

theorem sectionStep_heading_only {secs : List Section} {cur : Option Section} {sl : List Char}
    (hhead : is_heading sl = true)
    (hcur : cur = none ∨ ∃ t, cur = some (Section.mk t [])) :
    (sectionStep secs cur sl).1 = secs ∧
    ((sectionStep secs cur sl).2 = none ∨
     ∃ t, (sectionStep secs cur sl).2 = some (Section.mk t [])) := by
  unfold sectionStep
  rcases hcur with hc | ⟨t, hc⟩ <;> subst hc <;>
    by_cases hcc : is_concept_content sl <;>
      simp [hhead, hcc]

theorem pageLineStep_heading_only {secs : List Section} {cur : Option Section} {skip : Bool}
    {l : List Char}
    (hl : pyStrip l = [] ∨ is_heading (pyStrip l) = true)
    (hcur : cur = none ∨ ∃ t, cur = some (Section.mk t [])) :
    (pageLineStep (secs, cur, skip) l).1 = secs ∧
    ((pageLineStep (secs, cur, skip) l).2.1 = none ∨
     ∃ t, (pageLineStep (secs, cur, skip) l).2.1 = some (Section.mk t [])) := by
  unfold pageLineStep
  rcases hl with hnil | hhead
  · simp only [hnil, List.isEmpty_nil, if_pos rfl]
    exact ⟨rfl, hcur⟩
  · have hne : (pyStrip l).isEmpty = false := by
      cases hsl : pyStrip l with
      | nil => rw [hsl] at hhead; exact absurd hhead (by decide)
      | cons a b => rfl
    simp only [hne, Bool.false_eq_true, if_false]
    by_cases hcc : is_concept_content (pyStrip l)
    · have hskipcond : (is_heading (pyStrip l) && !is_concept_content (pyStrip l)) = false := by
        simp [hhead, hcc]
      simp only [hskipcond, Bool.false_eq_true, if_false]
      have hstep := @sectionStep_heading_only secs cur (pyStrip l) hhead hcur
      by_cases hskip : skip <;>
        simp [hskip, hhead, hcc] <;>
        exact ⟨hstep.1, hstep.2⟩
    · have hskipcond : (is_heading (pyStrip l) && !is_concept_content (pyStrip l)) = true := by
        simp [hhead, hcc]
      simp [hskipcond]

theorem headingOnly_fold :
    ∀ (lines : List (List Char)) (secs : List Section) (cur : Option Section) (skip : Bool),
      (∀ l ∈ lines, pyStrip l = [] ∨ is_heading (pyStrip l) = true) →
      (cur = none ∨ ∃ t, cur = some (Section.mk t [])) →
      (lines.foldl pageLineStep (secs, cur, skip)).1 = secs ∧
      ((lines.foldl pageLineStep (secs, cur, skip)).2.1 = none ∨
       ∃ t, (lines.foldl pageLineStep (secs, cur, skip)).2.1 = some (Section.mk t [])) := by
  intro lines
  induction lines with
  | nil => intro secs cur skip _ hcur; exact ⟨rfl, hcur⟩
  | cons l rest ih =>
    intro secs cur skip h hcur
    rw [List.foldl_cons]
    have hstep := @pageLineStep_heading_only secs cur skip l
      (h l (by simp)) hcur
    rcases hps : pageLineStep (secs, cur, skip) l with ⟨s1, c1, k1⟩
    rw [hps] at hstep
    simp only at hstep
    obtain ⟨h1, h2⟩ := hstep
    subst h1
    exact ih s1 c1 k1 (fun l' hl' => h l' (by simp [hl'])) h2

/-- **C3** (counterexample): in the word-processor builder a newly
opened section's content starts as `[text]` - the heading text itself
is stored as the first content line (line 259) - so a lone heading
paragraph IS emitted as a section: the single-paragraph document
`["引言"]` yields the emitted section `{引言, [引言]}`.  Both the
"content starts as the empty list" part and the "titles alone never
produce an emitted section" part of the claim fail for this variant. -/
theorem c3_docx_counterexample :
    (extract_docx_content [⟨"引言".toList, false⟩]).sections =
      [⟨"引言".toList, ["引言".toList]⟩] := by
  decide

/-- **C3** (amended): in the two page-description builders a newly
opened section starts with empty content, so a stream of units that are
all headings (or blank) emits no section at all - titles alone never
produce an emitted section THERE.  The word-processor builder instead
seeds the new section's content with the heading text, so lone headings
are emitted (see the counterexample); the slide builder's per-slide
fallback can likewise emit heading-only shape text as content. -/
theorem c3_page_builder_headings_only :
    ∀ lines : List (List Char),
      (∀ l ∈ lines, pyStrip l = [] ∨ is_heading (pyStrip l) = true) →
      runLines lines = [] := by
  intro lines h
  unfold runLines processPageLines finalizeSections
  have hfold := headingOnly_fold lines [] none false h (Or.inl rfl)
  rcases hfold.2 with h2 | ⟨t, h2⟩ <;>
    simp only [h2, hfold.1] <;>
    simp [hfold.1, h2]

/-- Witness for C3's amended theorem: two consecutive concept headings
on one page produce no sections. -/
theorem c3_page_builder_headings_only_witness :
    runLines (["引言", "结论"].map String.toList) = [] :=
  c3_page_builder_headings_only _ (by decide)

/-! ## Claim C4 -/

/-- **C4**: `extract_pdf_content` returns the secondary reader's value
exactly when the primary reader failed (`None`), returned no sections,
or returned a first section with empty content; otherwise it returns
the primary reader's result unchanged. -/
theorem c4_dual_parser_fallback :
    ∀ f : PdfFile,
      ((extract_with_pymupdf f.primary = none ∨
        (∃ d, extract_with_pymupdf f.primary = some d ∧
          (d.sections = [] ∨ firstHasContent d = false))) →
        extract_pdf_content f = extract_with_pdfplumber f) ∧
      (∀ d, extract_with_pymupdf f.primary = some d →
        d.sections ≠ [] → firstHasContent d = true →
        extract_pdf_content f = some d) := by
  intro f
  constructor
  · intro h
    unfold extract_pdf_content
    rcases h with hnone | ⟨d, hd, hbad⟩
    · rw [hnone]
    · rw [hd]
      rcases hbad with hs | hf
      · simp [hs, List.isEmpty_iff]
      · simp [hf]
  · intro d hd hs hf
    unfold extract_pdf_content
    rw [hd]
    have hne : d.sections.isEmpty = false := by
      cases hsec : d.sections with
      | nil => exact absurd hsec hs
      | cons a b => rfl
    simp [hne, hf]

/-- Witness for C4: a primary reader returning a document with no
sections makes `extract_pdf_content` return the secondary reader's
value. -/
theorem c4_dual_parser_fallback_witness :
    extract_pdf_content ⟨some ([], none), some ([], none)⟩ =
      extract_with_pdfplumber ⟨some ([], none), some ([], none)⟩ :=
  (c4_dual_parser_fallback _).1 (Or.inr ⟨_, rfl, Or.inl rfl⟩)

/-! ## Claim C2 -/

theorem inv_sectionStep {secs : List Section} {cur : Option Section} {sl : List Char}
    (h : ∀ s ∈ secs, s.content ≠ []) :
    ∀ s ∈ (sectionStep secs cur sl).1, s.content ≠ [] := by
  unfold sectionStep
  cases cur with
  | none =>
    by_cases hcc : is_concept_content sl <;> simp [hcc] <;> exact h
  | some c =>
    by_cases hic : c.content.isEmpty <;>
      by_cases hh : is_heading sl <;>
        by_cases hcc : is_concept_content sl <;>
          simp [hic, hh, hcc] <;>
          first
            | exact h
            | (intro s hs
               rcases hs with hmem | hmem
               · exact h s hmem
               · subst hmem
                 simpa [List.isEmpty_iff] using hic)

theorem inv_pageLineStep {st : List Section × Option Section × Bool} {l : List Char}
    (h : ∀ s ∈ st.1, s.content ≠ []) :
    ∀ s ∈ (pageLineStep st l).1, s.content ≠ [] := by
  obtain ⟨secs, cur, skip⟩ := st
  unfold pageLineStep
  by_cases h0 : (pyStrip l).isEmpty
  · simpa [h0] using h
  · simp only [h0, Bool.false_eq_true, if_false]
    by_cases h1 : (is_heading (pyStrip l) && !is_concept_content (pyStrip l)) = true
    · simpa [h1] using h
    · simp only [h1, Bool.false_eq_true, if_false]
      by_cases hskip : skip <;>
        by_cases hh : is_heading (pyStrip l) <;>
          by_cases hcc : is_concept_content (pyStrip l) <;>
            simp only [hskip, hh, hcc, if_true, if_false, Bool.false_eq_true, if_true] <;>
            first
              | exact h
              | simpa using @inv_sectionStep secs cur (pyStrip l) h

theorem inv_foldl_pageLineStep :
    ∀ (lines : List (List Char)) (st : List Section × Option Section × Bool),
      (∀ s ∈ st.1, s.content ≠ []) →
      ∀ s ∈ (lines.foldl pageLineStep st).1, s.content ≠ [] := by
  intro lines
  induction lines with
  | nil => intro st h; exact h
  | cons l rest ih =>
    intro st h
    rw [List.foldl_cons]
    exact ih _ (inv_pageLineStep h)

theorem inv_processPageLines {st : BuilderState} {lines : List (List Char)}
    (h : ∀ s ∈ st.1, s.content ≠ []) :
    ∀ s ∈ (processPageLines st lines).1, s.content ≠ [] := by
  unfold processPageLines
  exact inv_foldl_pageLineStep lines (st.1, st.2, false) h

theorem inv_finalizeSections {st : BuilderState}
    (h : ∀ s ∈ st.1, s.content ≠ []) :
    ∀ s ∈ finalizeSections st, s.content ≠ [] := by
  unfold finalizeSections
  cases hc : st.2 with
  | none => exact h
  | some c =>
    by_cases hic : c.content.isEmpty
    · simpa [hic] using h
    · simp only [hic, Bool.false_eq_true, if_false]
      intro s hs
      rcases List.mem_append.mp hs with hmem | hmem
      · exact h s hmem
      · have : s = c := by simpa using hmem
        subst this
        simpa [List.isEmpty_iff] using hic

theorem inv_pymupdfPageFold {st : BuilderState} {n : Nat} {page : Except Unit (List Char)}
    (h : ∀ s ∈ st.1, s.content ≠ []) :
    ∀ s ∈ (pymupdfPageFold st n page).1, s.content ≠ [] := by
  unfold pymupdfPageFold
  cases page with
  | ok text =>
    by_cases ht : text.isEmpty
    · simpa [ht] using h
    · simp only [ht, Bool.false_eq_true, if_false]
      exact inv_processPageLines h
  | error e => cases hc : st.2 <;> simpa [hc] using h

theorem inv_pymupdfPagesGo :
    ∀ (pages : List (Except Unit (List Char))) (st : BuilderState) (n : Nat),
      (∀ s ∈ st.1, s.content ≠ []) →
      ∀ s ∈ (pymupdfPagesGo st n pages).1, s.content ≠ [] := by
  intro pages
  induction pages with
  | nil => intro st n h; exact h
  | cons p rest ih =>
    intro st n h
    unfold pymupdfPagesGo
    exact ih _ _ (inv_pymupdfPageFold h)

theorem inv_docxStep {st : BuilderState} {p : Paragraph}
    (h : ∀ s ∈ st.1, s.content ≠ []) :
    ∀ s ∈ (docxStep st p).1, s.content ≠ [] := by
  unfold docxStep
  cases hc : st.2 with
  | none =>
    by_cases h0 : (pyStrip p.text).isEmpty <;>
      by_cases h1 : p.styleHeading <;>
        by_cases hh : is_heading (pyStrip p.text) <;>
          by_cases hcc : is_concept_content (pyStrip p.text) <;>
            simp [h0, h1, hh, hcc] <;>
            simpa using h
  | some c =>
    by_cases h0 : (pyStrip p.text).isEmpty <;>
      by_cases h1 : p.styleHeading <;>
        by_cases hh : is_heading (pyStrip p.text) <;>
          by_cases hcc : is_concept_content (pyStrip p.text) <;>
            by_cases hic : c.content.isEmpty <;>
              simp [h0, h1, hh, hcc, hic] <;>
              first
                | simpa using h
                | (intro s hs
                   rcases hs with hmem | hmem
                   · exact h s hmem
                   · subst hmem
                     simpa [List.isEmpty_iff] using hic)

theorem inv_pptxShapeStep {st : BuilderState} {raw : List Char}
    (h : ∀ s ∈ st.1, s.content ≠ []) :
    ∀ s ∈ (pptxShapeStep st raw).1, s.content ≠ [] := by
  unfold pptxShapeStep
  cases hc : st.2 with
  | none =>
    by_cases h0 : (pyStrip raw).isEmpty <;>
      by_cases hh : is_heading (pyStrip raw) <;>
        by_cases hcc : is_concept_content (pyStrip raw) <;>
          simp [h0, hh, hcc] <;>
          simpa using h
  | some c =>
    by_cases h0 : (pyStrip raw).isEmpty <;>
      by_cases hh : is_heading (pyStrip raw) <;>
        by_cases hcc : is_concept_content (pyStrip raw) <;>
          by_cases hic : c.content.isEmpty <;>
            simp [h0, hh, hcc, hic] <;>
            first
              | simpa using h
              | (intro s hs
                 rcases hs with hmem | hmem
                 · exact h s hmem
                 · subst hmem
                   simpa [List.isEmpty_iff] using hic)

theorem inv_pptxSlideFold {st : BuilderState} {sl : Slide}
    (h : ∀ s ∈ st.1, s.content ≠ []) :
    ∀ s ∈ (pptxSlideFold st sl).1, s.content ≠ [] := by
  unfold pptxSlideFold
  have hgen : ∀ (shapes : List (List Char)) (st : BuilderState),
      (∀ s ∈ st.1, s.content ≠ []) →
      ∀ s ∈ (shapes.foldl pptxShapeStep st).1, s.content ≠ [] := by
    intro shapes
    induction shapes with
    | nil => intro st h; exact h
    | cons x rest ih =>
      intro st h
      rw [List.foldl_cons]
      exact ih _ (inv_pptxShapeStep h)
  exact hgen sl.shapes st h

theorem inv_pptxFallbackGo :
    ∀ (slides : List Slide) (i : Nat),
      ∀ s ∈ pptxFallbackGo i slides, s.content ≠ [] := by
  intro slides
  induction slides with
  | nil => intro i s hs; simp [pptxFallbackGo] at hs
  | cons sl rest ih =>
    intro i s hs
    unfold pptxFallbackGo at hs
    by_cases hc : (pptxFallbackContent sl).isEmpty
    · rw [if_pos hc] at hs
      exact ih _ s hs
    · rw [if_neg hc] at hs
      rcases List.mem_cons.mp hs with hmem | hmem
      · subst hmem
        simpa [List.isEmpty_iff] using hc
      · exact ih _ s hmem

theorem inv_plumberPageFold {st : BuilderState} {page : PlumberPage}
    (h : ∀ s ∈ st.1, s.content ≠ []) :
    ∀ s ∈ (plumberPageFold st page).1, s.content ≠ [] := by
  unfold plumberPageFold
  by_cases ht : (plumberPageText page).isEmpty
  · simpa [ht] using h
  · simp only [ht, Bool.false_eq_true, if_false]
    exact inv_processPageLines h

theorem inv_foldl_plumber :
    ∀ (pages : List PlumberPage) (st : BuilderState),
      (∀ s ∈ st.1, s.content ≠ []) →
      ∀ s ∈ (pages.foldl plumberPageFold st).1, s.content ≠ [] := by
  intro pages
  induction pages with
  | nil => intro st h; exact h
  | cons p rest ih =>
    intro st h
    rw [List.foldl_cons]
    exact ih _ (inv_plumberPageFold h)

/-- **C2**: every section in the `sections` list returned by any of the
builders - the primary and secondary page-description readers, the
dual-parser orchestrator, the word-processor builder and the slide
builder - has non-empty content: no emitted section ever has empty
content.  (Sections enter the output only through guards requiring a
non-empty `content`, including the final close and the slide builder's
per-slide fallback.) -/
theorem c2_no_empty_section :
    (∀ f d, extract_with_pymupdf f = some d → ∀ s ∈ d.sections, s.content ≠ []) ∧
    (∀ f d, extract_with_pdfplumber f = some d → ∀ s ∈ d.sections, s.content ≠ []) ∧
    (∀ f d, extract_pdf_content f = some d → ∀ s ∈ d.sections, s.content ≠ []) ∧
    (∀ paras, ∀ s ∈ (extract_docx_content paras).sections, s.content ≠ []) ∧
    (∀ slides, ∀ s ∈ (extract_pptx_content slides).sections, s.content ≠ []) := by
  have hpy : ∀ f d, extract_with_pymupdf f = some d → ∀ s ∈ d.sections, s.content ≠ [] := by
    intro f d hf
    cases f with
    | none => simp [extract_with_pymupdf] at hf
    | some pa =>
      obtain ⟨pages, author⟩ := pa
      simp only [extract_with_pymupdf, Option.some_inj] at hf
      subst hf
      exact inv_finalizeSections (inv_pymupdfPagesGo pages ([], none) 0 (by simp))
  have hpl : ∀ f d, extract_with_pdfplumber f = some d → ∀ s ∈ d.sections, s.content ≠ [] := by
    intro f d hf
    unfold extract_with_pdfplumber at hf
    cases hsec : f.secondary with
    | none =>
      rw [hsec] at hf
      exact hpy _ _ hf
    | some pa =>
      obtain ⟨pages, author⟩ := pa
      rw [hsec] at hf
      simp only [Option.some_inj] at hf
      subst hf
      exact inv_finalizeSections (inv_foldl_plumber pages ([], none) (by simp))
  refine ⟨hpy, hpl, ?_, ?_, ?_⟩
  · intro f d hf
    cases hp : extract_with_pymupdf f.primary with
    | none =>
      simp only [extract_pdf_content, hp] at hf
      exact hpl _ _ hf
    | some d0 =>
      simp only [extract_pdf_content, hp] at hf
      by_cases hcond : (!d0.sections.isEmpty && firstHasContent d0) = true
      · rw [if_pos hcond] at hf
        simp only [Option.some_inj] at hf
        subst hf
        exact hpy _ _ hp
      · rw [if_neg hcond] at hf
        exact hpl _ _ hf
  · intro paras
    unfold extract_docx_content
    have hgen : ∀ (ps : List Paragraph) (st : BuilderState),
        (∀ s ∈ st.1, s.content ≠ []) →
        ∀ s ∈ (ps.foldl docxStep st).1, s.content ≠ [] := by
      intro ps
      induction ps with
      | nil => intro st h; exact h
      | cons p rest ih =>
        intro st h
        rw [List.foldl_cons]
        exact ih _ (inv_docxStep h)
    exact inv_finalizeSections (hgen paras ([], none) (by simp))
  · intro slides
    unfold extract_pptx_content
    have hgen : ∀ (sls : List Slide) (st : BuilderState),
        (∀ s ∈ st.1, s.content ≠ []) →
        ∀ s ∈ (sls.foldl pptxSlideFold st).1, s.content ≠ [] := by
      intro sls
      induction sls with
      | nil => intro st h; exact h
      | cons sl rest ih =>
        intro st h
        rw [List.foldl_cons]
        exact ih _ (inv_pptxSlideFold h)
    have hstruct := inv_finalizeSections (hgen slides ([], none) (by simp))
    by_cases hempty : (finalizeSections (slides.foldl pptxSlideFold ([], none))).isEmpty
    · simpa [hempty] using inv_pptxFallbackGo slides 0
    · simpa [hempty] using hstruct

/-- Witness for C2: the word-processor builder on a heading followed by a
content paragraph emits exactly the section
`{引言, [引言, 这是重要内容。]}`, and the theorem certifies its content
is non-empty. -/
theorem c2_no_empty_section_witness :
    (Section.mk "引言".toList ["引言".toList, "这是重要内容。".toList]).content ≠ [] :=
  c2_no_empty_section.2.2.2.1
    [⟨"引言".toList, false⟩, ⟨"这是重要内容。".toList, false⟩]
    (Section.mk "引言".toList ["引言".toList, "这是重要内容。".toList])
    (by decide)

/-! ## Claim C9 -/

theorem noHH_cons_iff {c : Char} {l : List Char} :
    noHH (c :: l) = true ↔ (noHH l = true ∧ ¬(c = '#' ∧ l.head? = some '#')) := by
  cases l with
  | nil => simp [noHH]
  | cons d t =>
    simp only [noHH, Bool.and_eq_true, Bool.not_eq_true', List.head?_cons,
      Option.some_inj]
    constructor
    · rintro ⟨h1, h2⟩
      refine ⟨h2, ?_⟩
      rintro ⟨hc, hd⟩
      subst hc hd
      simp at h1
    · rintro ⟨h1, h2⟩
      refine ⟨?_, h1⟩
      by_cases hc : c = '#' <;> by_cases hd : d = '#' <;> simp [hc, hd] <;>
        exact h2 ⟨hc, hd⟩

theorem noHH_append {a b : List Char} (ha : noHH a = true) (hb : noHH b = true)
    (hj : a.getLast? ≠ some '#' ∨ b.head? ≠ some '#') :
    noHH (a ++ b) = true := by
  induction a with
  | nil => simpa using hb
  | cons c t ih =>
    have hct := noHH_cons_iff.mp ha
    rw [List.cons_append, noHH_cons_iff]
    cases t with
    | nil =>
      refine ⟨by simpa using hb, ?_⟩
      rintro ⟨hc, hh⟩
      subst hc
      rcases hj with hja | hjb
      · simp at hja
      · simp only [List.nil_append] at hh
        exact hjb hh
    | cons d t' =>
      have hj' : (d :: t').getLast? ≠ some '#' ∨ b.head? ≠ some '#' := by
        rcases hj with hja | hjb
        · left; simpa [List.getLast?_cons_cons] using hja
        · right; exact hjb
      refine ⟨ih hct.1 hj', ?_⟩
      rintro ⟨hc, hh⟩
      simp only [List.cons_append, List.head?_cons, Option.some_inj] at hh
      exact hct.2 ⟨hc, by simp [hh]⟩

theorem splitHH_noHH : ∀ {s : List Char}, noHH s = true → splitHH s = [s] := by
  intro s
  induction s with
  | nil => intro _; rfl
  | cons c t ih =>
    intro h
    cases t with
    | nil => rfl
    | cons d t' =>
      simp only [noHH, Bool.and_eq_true, Bool.not_eq_true'] at h
      rw [splitHH, if_neg (by simp [h.1]), ih h.2]

theorem splitHH_hash_hash (X : List Char) :
    splitHH ('#' :: '#' :: X) = [] :: splitHH X := by
  rw [splitHH]
  simp

theorem splitHH_concat : ∀ {a : List Char} (r : List Char), noHH a = true →
    a.getLast? ≠ some '#' →
    splitHH (a ++ '#' :: '#' :: r) = a :: splitHH r := by
  intro a
  induction a with
  | nil =>
    intro r _ _
    simp [splitHH_hash_hash]
  | cons c t ih =>
    intro r ha hlast
    cases t with
    | nil =>
      have hc : c ≠ '#' := by simpa using hlast
      simp only [List.cons_append, List.nil_append]
      rw [splitHH, if_neg (by simp [hc]), splitHH_hash_hash]
    | cons d t' =>
      have h2 := noHH_cons_iff.mp ha
      have hlast' : (d :: t').getLast? ≠ some '#' := by
        simpa [List.getLast?_cons_cons] using hlast
      have hcd : ¬(c = '#' && d = '#') = true := by
        intro hb
        simp only [Bool.and_eq_true, decide_eq_true_eq] at hb
        exact h2.2 ⟨hb.1, by simp [hb.2]⟩
      simp only [List.cons_append]
      rw [splitHH, if_neg hcd]
      have hrec := ih r h2.1 hlast'
      simp only [List.cons_append] at hrec
      rw [hrec]

theorem joinDoubleNl_cons_cons (x y : List Char) (t : List (List Char)) :
    joinDoubleNl (x :: y :: t) = x ++ '\n' :: '\n' :: joinDoubleNl (y :: t) := rfl

theorem splitHH_prepare :
    ∀ bodies : List (List Char), bodies ≠ [] → (∀ b ∈ bodies, noHH b = true) →
      splitHH (joinDoubleNl (bodies.map (fun b => '#' :: '#' :: b))) =
        [] :: withSep bodies := by
  intro bodies
  induction bodies with
  | nil => intro h _; exact absurd rfl h
  | cons b rest ih =>
    intro _ hall
    cases rest with
    | nil =>
      simp only [List.map_cons, List.map_nil, joinDoubleNl]
      rw [splitHH_hash_hash, splitHH_noHH (hall b (by simp))]
      rfl
    | cons b2 rest2 =>
      have hjoin : ∃ Y, joinDoubleNl ((b2 :: rest2).map (fun x => '#' :: '#' :: x)) =
          '#' :: '#' :: Y := by
        cases rest2 with
        | nil => exact ⟨b2, by simp [joinDoubleNl]⟩
        | cons b3 r3 =>
          refine ⟨b2 ++ '\n' :: '\n' :: joinDoubleNl ((b3 :: r3).map (fun x => '#' :: '#' :: x)), ?_⟩
          simp [joinDoubleNl]
      obtain ⟨Y, hY⟩ := hjoin
      have hb : noHH b = true := hall b (by simp)
      have hbnn : noHH (b ++ ['\n', '\n']) = true := by
        refine noHH_append hb (by decide) (Or.inr ?_)
        simp
      have hlastnn : (b ++ ['\n', '\n']).getLast? ≠ some '#' := by
        rw [List.getLast?_append_of_ne_nil b (show (['\n', '\n'] : List Char) ≠ [] by simp)]
        simp
      have hih := ih (by simp) (fun x hx => hall x (by simp [hx]))
      rw [hY, splitHH_hash_hash] at hih
      have hYsplit : splitHH Y = withSep (b2 :: rest2) := by
        simpa using hih
      rw [List.map_cons] at hY
      have hjoin2 : joinDoubleNl ((b :: b2 :: rest2).map (fun x => '#' :: '#' :: x)) =
          '#' :: '#' :: ((b ++ ['\n', '\n']) ++ '#' :: '#' :: Y) := by
        simp only [List.map_cons]
        rw [joinDoubleNl_cons_cons, hY]
        simp
      rw [hjoin2, splitHH_hash_hash, splitHH_concat _ hbnn hlastnn, hYsplit]
      rfl

theorem withSep_length : ∀ bodies : List (List Char),
    (withSep bodies).length = bodies.length := by
  intro bodies
  induction bodies with
  | nil => rfl
  | cons b rest ih =>
    cases rest with
    | nil => rfl
    | cons b2 r2 => simpa [withSep] using ih

theorem withSep_mem : ∀ (bodies : List (List Char)) (p : List Char),
    p ∈ withSep bodies → ∃ b ∈ bodies, ∃ suffix, p = b ++ suffix := by
  intro bodies
  induction bodies with
  | nil => intro p hp; simp [withSep] at hp
  | cons b rest ih =>
    intro p hp
    cases rest with
    | nil =>
      simp only [withSep, List.mem_singleton] at hp
      exact ⟨b, by simp, [], by simp [hp]⟩
    | cons b2 r2 =>
      simp only [withSep, List.mem_cons] at hp
      rcases hp with hp | hp
      · exact ⟨b, by simp, ['\n', '\n'], hp⟩
      · obtain ⟨b', hb', suf, hsuf⟩ := ih p hp
        exact ⟨b', by simp [hb'], suf, hsuf⟩

theorem filterMap_length_of_isSome {α β : Type} (f : α → Option β) :
    ∀ l : List α, (∀ x ∈ l, (f x).isSome) → (l.filterMap f).length = l.length := by
  intro l
  induction l with
  | nil => intro _; rfl
  | cons x t ih =>
    intro h
    have hx := h x (by simp)
    cases hfx : f x with
    | none => rw [hfx] at hx; simp at hx
    | some y =>
      rw [List.filterMap_cons, hfx]
      simpa using ih (fun z hz => h z (by simp [hz]))

theorem mem_dropWhile_of_mem_not {p : Char → Bool} :
    ∀ {l : List Char} {c : Char}, c ∈ l → p c = false → c ∈ l.dropWhile p := by
  intro l
  induction l with
  | nil => intro c hc _; simp at hc
  | cons x t ih =>
    intro c hc hp
    by_cases hx : p x
    · rw [List.dropWhile_cons, if_pos hx]
      rcases List.mem_cons.mp hc with hceq | hct
      · subst hceq; rw [hp] at hx; simp at hx
      · exact ih hct hp
    · rw [List.dropWhile_cons, if_neg hx]
      exact hc

theorem pyStrip_eq_nil_imp_all_space {s : List Char} (h : pyStrip s = []) :
    ∀ c ∈ s, isSpaceChar c = true := by
  intro c hc
  by_contra hns
  rw [Bool.not_eq_true] at hns
  have h1 : (s.dropWhile isSpaceChar).reverse.dropWhile isSpaceChar = [] := by
    simpa [pyStrip] using congrArg List.reverse h
  have hc1 : c ∈ s.dropWhile isSpaceChar := mem_dropWhile_of_mem_not hc hns
  have hc2 : c ∈ (s.dropWhile isSpaceChar).reverse := by simpa using hc1
  have hc3 : c ∈ (s.dropWhile isSpaceChar).reverse.dropWhile isSpaceChar :=
    mem_dropWhile_of_mem_not hc2 hns
  rw [h1] at hc3
  simp at hc3

/-- **C9** (counterexample): on the EMPTY Knowledge Tree the identity
round trip through the summarisation boundary does not preserve node
count: `prepare_content_for_ai` yields `""`, Python `"".split("##")`
gives `[""]` so nothing parses, and `parse_ai_response` falls back to
one wrapper node - 1 node out for 0 nodes in. -/
theorem c9_roundtrip_counterexample :
    (parse_ai_response (prepare_content_for_ai ([] : List AINode))).length ≠
      ([] : List AINode).length := by
  decide

/-- **C9** (amended): the identity round trip preserves node count for
every NON-EMPTY tree whose node titles and contents contain no
occurrence of the separator `"##"` and whose titles do not strip to the
empty string.  (The empty tree gains the fallback node; a `"##"` inside
a field would split a node; an all-whitespace title and content would
make the piece strip to empty and be dropped.) -/
theorem c9_roundtrip_count :
    ∀ tree : List AINode, tree ≠ [] →
      (∀ n ∈ tree, noHH n.title = true ∧ noHH (aiContentText n.content) = true ∧
        pyStrip n.title ≠ []) →
      (parse_ai_response (prepare_content_for_ai tree)).length = tree.length := by
  intro tree hne hall
  have hmap : tree.map (fun n => "## ".toList ++ n.title ++ '\n' :: aiContentText n.content)
      = (tree.map (fun n => ' ' :: (n.title ++ '\n' :: aiContentText n.content))).map
          (fun b => '#' :: '#' :: b) := by
    rw [List.map_map]
    rfl
  set bodies := tree.map (fun n => ' ' :: (n.title ++ '\n' :: aiContentText n.content)) with hbodies
  have hbne : bodies ≠ [] := by
    rw [hbodies]
    simpa using hne
  have hnoHH : ∀ b ∈ bodies, noHH b = true := by
    rw [hbodies]
    intro b hb
    obtain ⟨n, hn, rfl⟩ := List.mem_map.mp hb
    obtain ⟨h1, h2, _⟩ := hall n hn
    rw [noHH_cons_iff]
    refine ⟨noHH_append h1 (noHH_cons_iff.mpr ⟨h2, by simp⟩) (Or.inr (by simp)), ?_⟩
    rintro ⟨hsp, _⟩
    exact absurd hsp (by decide)
  have hsplit := splitHH_prepare bodies hbne hnoHH
  have hprep : prepare_content_for_ai tree =
      joinDoubleNl (bodies.map (fun b => '#' :: '#' :: b)) := by
    unfold prepare_content_for_ai
    rw [hmap]
  have hsome : ∀ p ∈ withSep bodies, (parsePiece p).isSome := by
    intro p hp
    obtain ⟨b, hb, suf, rfl⟩ := withSep_mem bodies p hp
    rw [hbodies] at hb
    obtain ⟨n, hn, rfl⟩ := List.mem_map.mp hb
    obtain ⟨_, _, h3⟩ := hall n hn
    have hchar : ∃ c ∈ n.title, isSpaceChar c = false := by
      by_contra hall2
      push_neg at hall2
      refine h3 (pyStrip_eq_nil_of_all_space ?_)
      intro c hc
      have := hall2 c hc
      simpa using this
    obtain ⟨c, hcmem, hcns⟩ := hchar
    have hcp : c ∈ (' ' :: (n.title ++ '\n' :: aiContentText n.content)) ++ suf := by
      simp [hcmem]
    have hstrip : pyStrip ((' ' :: (n.title ++ '\n' :: aiContentText n.content)) ++ suf) ≠ [] := by
      intro hnil
      have := pyStrip_eq_nil_imp_all_space hnil c hcp
      rw [this] at hcns
      simp at hcns
    have hie : (pyStrip ((' ' :: (n.title ++ '\n' :: aiContentText n.content)) ++ suf)).isEmpty = false := by
      cases hx : pyStrip ((' ' :: (n.title ++ '\n' :: aiContentText n.content)) ++ suf) with
      | nil => exact absurd hx hstrip
      | cons _ _ => rfl
    unfold parsePiece
    simp only [hie, Bool.false_eq_true, if_false]
    cases splitNl (pyStrip ((' ' :: (n.title ++ '\n' :: aiContentText n.content)) ++ suf)) <;> simp
  have hlen : ((withSep bodies).filterMap parsePiece).length = tree.length := by
    rw [filterMap_length_of_isSome parsePiece _ hsome, withSep_length, hbodies]
    simp
  have hpp_nil : parsePiece [] = none := rfl
  have hnonempty : ((withSep bodies).filterMap parsePiece).isEmpty = false := by
    cases hx : (withSep bodies).filterMap parsePiece with
    | nil =>
      rw [hx] at hlen
      simp only [List.length_nil] at hlen
      cases tree with
      | nil => exact absurd rfl hne
      | cons _ _ => simp at hlen
    | cons _ _ => rfl
  unfold parse_ai_response
  rw [hprep, hsplit, List.filterMap_cons, hpp_nil]
  simp only [hnonempty, Bool.false_eq_true, if_false]
  exact hlen

/-- Witness for C9's amended theorem at a one-node tree. -/
theorem c9_roundtrip_count_witness :
    (parse_ai_response (prepare_content_for_ai
      [⟨"引言".toList, AIContent.str "内容".toList, []⟩])).length = 1 :=
  c9_roundtrip_count [⟨"引言".toList, AIContent.str "内容".toList, []⟩]
    (by simp)
    (by
      intro n hn
      have hmem : n = ⟨"引言".toList, AIContent.str "内容".toList, []⟩ := by
        simpa using hn
      subst hmem
      exact ⟨by decide, by decide, by decide⟩)

/-! ## Claim C10 -/

/-- **C10**: the `skip_section` latch of the page-description builders is
per-page, not document-wide.  (1) A non-concept heading at the end of a
page discards the open section and latches skip, but the latch is not
part of the cross-page state: `processPageLines` starts every page with
`skip_section = False` while `current_section` and the section list are
carried over.  (2) Hence the next page's first concept content line is
processed normally (it opens a fresh section, since the heading also
cleared `current_section`).  (3) By contrast, WITHIN one page the same
line right after the non-concept heading is swallowed by the latch. -/
theorem c10_skip_reset :
    ∀ (p1s p2s : List (List Char)) (secs A : List Section) (cur : Option Section)
      (sk : Bool) (h c : List Char),
      is_heading (pyStrip h) = true → is_concept_content (pyStrip h) = false →
      is_heading (pyStrip c) = false → is_concept_content (pyStrip c) = true →
      pyStrip c ≠ [] →
      ((p1s ++ [h]).foldl pageLineStep (secs, cur, sk) =
        ((p1s.foldl pageLineStep (secs, cur, sk)).1, none, true)) ∧
      (processPageLines (A, none) (c :: p2s) =
        ((p2s.foldl pageLineStep (A, some ⟨pyStrip c, []⟩, false)).1,
         (p2s.foldl pageLineStep (A, some ⟨pyStrip c, []⟩, false)).2.1)) ∧
      ((c :: p2s).foldl pageLineStep (A, none, true) =
        p2s.foldl pageLineStep (A, none, true)) := by
  intro p1s p2s secs A cur sk h c hh hhc hch hcc hcne
  have hhe : (pyStrip h).isEmpty = false := by
    cases hx : pyStrip h with
    | nil => rw [hx] at hh; exact absurd hh (by decide)
    | cons _ _ => rfl
  have hce : (pyStrip c).isEmpty = false := by
    cases hx : pyStrip c with
    | nil => exact absurd hx hcne
    | cons _ _ => rfl
  have hstep_h : ∀ st : List Section × Option Section × Bool,
      pageLineStep st h = (st.1, none, true) := by
    intro st
    obtain ⟨a, b, k⟩ := st
    unfold pageLineStep
    simp [hhe, hh, hhc]
  refine ⟨?_, ?_, ?_⟩
  · rw [List.foldl_append]
    simp only [List.foldl_cons, List.foldl_nil]
    exact hstep_h _
  · unfold processPageLines
    simp only [List.foldl_cons]
    have hfirst : pageLineStep (A, none, false) c = (A, some ⟨pyStrip c, []⟩, false) := by
      unfold pageLineStep
      simp only [hce, Bool.false_eq_true, if_false]
      simp only [hch, Bool.false_and, Bool.false_eq_true, if_false]
      simp [sectionStep, hcc]
    rw [hfirst]
  · simp only [List.foldl_cons]
    have hswallow : pageLineStep (A, none, true) c = (A, none, true) := by
      unfold pageLineStep
      simp [hce, hch]
    rw [hswallow]

/-- Witness for C10: with no surrounding lines, a fresh page opens a
section for the content line, while within a latched page the same line
is swallowed. -/
theorem c10_skip_reset_witness :
    processPageLines ([], none) ["这是重要内容。".toList] =
      (([] : List Section), some (Section.mk (pyStrip "这是重要内容。".toList) [])) ∧
    ["这是重要内容。".toList].foldl pageLineStep ([], none, true) =
      ([], none, true) := by
  have h := c10_skip_reset [] [] [] [] none false "习题参考".toList "这是重要内容。".toList
    (by decide) (by decide) (by decide) (by decide) (by decide)
  exact ⟨h.2.1, h.2.2⟩

/-! ## Claim C7 -/

theorem takeWhile_dropWhile_length (p : Char → Bool) (l : List Char) :
    (l.takeWhile p).length + (l.dropWhile p).length = l.length := by
  rw [← List.length_append, List.takeWhile_append_dropWhile]

theorem p1MatchAt_some_lt {s : List Char} {ls : Bool} {rest : List Char}
    (h : p1MatchAt s = some (ls, rest)) : rest.length < s.length := by
  unfold p1MatchAt at h
  split at h
  · exact absurd h (by simp)
  · rename_i hd
    have hw1 : ((s.dropWhile isSpaceChar).takeWhile isDigitChar).length
        + ((s.dropWhile isSpaceChar).dropWhile isDigitChar).length
        = (s.dropWhile isSpaceChar).length := takeWhile_dropWhile_length _ _
    have hw2 : (((s.dropWhile isSpaceChar).dropWhile isDigitChar).takeWhile isSpaceChar).length
        + (((s.dropWhile isSpaceChar).dropWhile isDigitChar).dropWhile isSpaceChar).length
        = ((s.dropWhile isSpaceChar).dropWhile isDigitChar).length := takeWhile_dropWhile_length _ _
    have hle : (s.dropWhile isSpaceChar).length ≤ s.length := dropWhile_length_le _ s
    have hdpos : 0 < ((s.dropWhile isSpaceChar).takeWhile isDigitChar).length := by
      cases hne : (s.dropWhile isSpaceChar).takeWhile isDigitChar with
      | nil => exact absurd (by simp [hne]) hd
      | cons x xs => simp
    split at h
    · have hr : rest = [] := by
        have := h
        simp at this
        exact this.2
      subst hr
      simp only [List.length_nil]
      omega
    · split at h
      · rename_i a b hsp
        have hw2eq := splitLastNl_eq hsp
        have hlen : (((s.dropWhile isSpaceChar).dropWhile isDigitChar).takeWhile isSpaceChar).length
            = a.length + 1 + b.length := by
          rw [hw2eq]
          simp
          omega
        have hrest : rest = '\n' :: (b ++ ((s.dropWhile isSpaceChar).dropWhile isDigitChar).dropWhile isSpaceChar) := by
          have := h
          simp at this
          exact this.2.symm
        subst hrest
        simp only [List.length_cons, List.length_append]
        omega
      · exact absurd h (by simp)

theorem takeWhile_ne_nil_dropWhile_lt (p : Char → Bool) (l : List Char) {c : Char}
    (h : (l.takeWhile p).getLast? = some c) : (l.dropWhile p).length < l.length := by
  cases l with
  | nil => simp [List.takeWhile] at h
  | cons x t =>
    by_cases hx : p x
    · have := dropWhile_length_le p t
      simp [List.dropWhile, hx]
      omega
    · simp [List.takeWhile, hx] at h

theorem p3TailMatch_some_lt {s : List Char} {dl : Char} {r : List Char}
    (h : p3TailMatch s = some (dl, r)) : r.length < s.length := by
  unfold p3TailMatch at h
  split at h
  · exact absurd h (by simp)
  · rename_i dl' hd
    split at h
    · have hr : r = (((s.dropWhile isSpaceChar).dropWhile (fun c => c = '.' || c = ':')).dropWhile isSpaceChar).dropWhile isDigitChar := by
        have := h
        simp at this
        exact this.2.symm
      subst hr
      have h1 := takeWhile_ne_nil_dropWhile_lt isDigitChar
        (((s.dropWhile isSpaceChar).dropWhile (fun c => c = '.' || c = ':')).dropWhile isSpaceChar) hd
      have h2 := dropWhile_length_le isSpaceChar
        ((s.dropWhile isSpaceChar).dropWhile (fun c => c = '.' || c = ':'))
      have h3 := dropWhile_length_le (fun c => c = '.' || c = ':') (s.dropWhile isSpaceChar)
      have h4 := dropWhile_length_le isSpaceChar s
      omega
    · exact absurd h (by simp)

theorem ciPrefixDrop_length_le :
    ∀ {kw s r : List Char}, ciPrefixDrop kw s = some r → r.length ≤ s.length := by
  intro kw
  induction kw with
  | nil =>
    intro s r h
    simp [ciPrefixDrop] at h
    subst h
    exact le_refl _
  | cons k kt ih =>
    intro s r h
    cases s with
    | nil => simp [ciPrefixDrop] at h
    | cons c ct =>
      simp only [ciPrefixDrop] at h
      split at h
      · have := ih h
        simp only [List.length_cons]
        omega
      · exact absurd h (by simp)

theorem p3TryAlts_some_lt :
    ∀ {kws : List (List Char)} {s : List Char} {dl : Char} {r : List Char},
      p3TryAlts kws s = some (dl, r) → r.length < s.length := by
  intro kws
  induction kws with
  | nil => intro s dl r h; simp [p3TryAlts] at h
  | cons kw rest ih =>
    intro s dl r h
    cases hc : ciPrefixDrop kw s with
    | some afterKw =>
      cases ht : p3TailMatch afterKw with
      | some pr =>
        obtain ⟨dl', r'⟩ := pr
        simp only [p3TryAlts, hc, ht] at h
        have hr : r = r' := by simp at h; exact h.2.symm
        subst hr
        have h1 := p3TailMatch_some_lt ht
        have h2 := ciPrefixDrop_length_le hc
        omega
      | none =>
        simp only [p3TryAlts, hc, ht] at h
        exact ih h
    | none =>
      simp only [p3TryAlts, hc] at h
      exact ih h

theorem dropWhile_head_false {p : Char → Bool} :
    ∀ {l : List Char} {c : Char} {r : List Char}, l.dropWhile p = c :: r → p c = false := by
  intro l
  induction l with
  | nil => intro c r h; simp [List.dropWhile] at h
  | cons x t ih =>
    intro c r h
    by_cases hx : p x
    · rw [List.dropWhile_cons, if_pos hx] at h
      exact ih h
    · rw [List.dropWhile_cons, if_neg hx] at h
      injection h with h1 h2
      subst h1
      simpa using hx

theorem p1GoF_shrink : ∀ (fuel : Nat) (s : List Char) (b : Bool),
    p1GoF fuel s b = s ∨ (p1GoF fuel s b).length < s.length := by
  intro fuel
  induction fuel with
  | zero => intro s b; left; rfl
  | succ n ih =>
    intro s b
    have hnone : (match s.dropWhile (fun c => !(c = '\n')) with
        | [] => s
        | _ :: r => s.takeWhile (fun c => !(c = '\n')) ++ '\n' :: p1GoF n r true) = s ∨
        (match s.dropWhile (fun c => !(c = '\n')) with
        | [] => s
        | _ :: r => s.takeWhile (fun c => !(c = '\n')) ++ '\n' :: p1GoF n r true).length < s.length := by
      cases hd : s.dropWhile (fun c => !(c = '\n')) with
      | nil => left; rfl
      | cons c0 r =>
        have hc0 : c0 = '\n' := by
          have := dropWhile_head_false hd
          simpa using this
        subst hc0
        have hlen : s.length = (s.takeWhile (fun c => !(c = '\n'))).length + 1 + r.length := by
          have h1 := takeWhile_dropWhile_length (fun c => !(c = '\n')) s
          rw [hd] at h1
          simp only [List.length_cons] at h1
          omega
        rcases ih r true with hr | hr
        · left
          dsimp only
          rw [hr]
          conv_rhs => rw [← List.takeWhile_append_dropWhile (fun c => !(c = '\n')) s, hd]
        · right
          dsimp only
          simp only [List.length_append, List.length_cons]
          omega
    cases b with
    | false =>
      rw [show p1GoF (n + 1) s false = (match s.dropWhile (fun c => !(c = '\n')) with
          | [] => s
          | _ :: r => s.takeWhile (fun c => !(c = '\n')) ++ '\n' :: p1GoF n r true) from by
        simp [p1GoF]]
      exact hnone
    | true =>
      cases hm : p1MatchAt s with
      | none =>
        rw [show p1GoF (n + 1) s true = (match s.dropWhile (fun c => !(c = '\n')) with
            | [] => s
            | _ :: r => s.takeWhile (fun c => !(c = '\n')) ++ '\n' :: p1GoF n r true) from by
          rw [p1GoF]
          simp [hm]]
        exact hnone
      | some pr =>
        obtain ⟨ls, rest⟩ := pr
        rw [show p1GoF (n + 1) s true = p1GoF n rest ls from by
          rw [p1GoF]
          simp [hm]]
        right
        have hlt := p1MatchAt_some_lt hm
        rcases ih rest ls with hr | hr
        · rw [hr]; omega
        · omega

theorem p2GoF_shrink : ∀ (fuel : Nat) (prev : Option Char) (s : List Char),
    p2GoF fuel prev s = s ∨ (p2GoF fuel prev s).length < s.length := by
  intro fuel
  induction fuel with
  | zero => intro prev s; left; rfl
  | succ n ih =>
    intro prev s
    cases s with
    | nil => left; rfl
    | cons c t =>
      have hcons : ∀ pv : Option Char,
          c :: p2GoF n pv t = c :: t ∨ (c :: p2GoF n pv t).length < (c :: t).length := by
        intro pv
        rcases ih pv t with h | h
        · left; rw [h]
        · right; simp only [List.length_cons]; omega
      rw [p2GoF]
      by_cases hb : (c = 'P' && boundaryBefore prev) = true
      · simp only [hb, if_true]
        cases hd : (t.takeWhile isDigitChar).getLast? with
        | some dl =>
          by_cases hw : nonWordStart (t.dropWhile isDigitChar) = true
          · simp only [hw, if_true]
            right
            have hle := dropWhile_length_le isDigitChar t
            rcases ih (some dl) (t.dropWhile isDigitChar) with h | h
            · rw [h]; simp only [List.length_cons]; omega
            · simp only [List.length_cons]; omega
          · simp only [Bool.not_eq_true] at hw
            simp only [hw, Bool.false_eq_true, if_false]
            exact hcons _
        | none => exact hcons _
      · simp only [Bool.not_eq_true] at hb
        simp only [hb, Bool.false_eq_true, if_false]
        exact hcons _

theorem p3GoF_shrink : ∀ (fuel : Nat) (prev : Option Char) (s : List Char),
    p3GoF fuel prev s = s ∨ (p3GoF fuel prev s).length < s.length := by
  intro fuel
  induction fuel with
  | zero => intro prev s; left; rfl
  | succ n ih =>
    intro prev s
    cases s with
    | nil => left; rfl
    | cons c t =>
      have hcons : ∀ pv : Option Char,
          c :: p3GoF n pv t = c :: t ∨ (c :: p3GoF n pv t).length < (c :: t).length := by
        intro pv
        rcases ih pv t with h | h
        · left; rw [h]
        · right; simp only [List.length_cons]; omega
      rw [p3GoF]
      by_cases hb : boundaryBefore prev = true
      · simp only [hb, if_true]
        cases hm : p3TryAlts p3Keywords (c :: t) with
        | some pr =>
          obtain ⟨dl, rest⟩ := pr
          dsimp only
          right
          have hlt := p3TryAlts_some_lt hm
          rcases ih (some dl) rest with h | h
          · rw [h]; omega
          · omega
        | none => exact hcons _
      · simp only [Bool.not_eq_true] at hb
        simp only [hb, Bool.false_eq_true, if_false]
        exact hcons _

theorem p4GoF_shrink : ∀ (fuel : Nat) (s : List Char),
    p4GoF fuel s = s ∨ (p4GoF fuel s).length < s.length := by
  intro fuel
  induction fuel with
  | zero => intro s; left; rfl
  | succ n ih =>
    intro s
    cases s with
    | nil => left; rfl
    | cons c t =>
      have hcons : c :: p4GoF n t = c :: t ∨ (c :: p4GoF n t).length < (c :: t).length := by
        rcases ih t with h | h
        · left; rw [h]
        · right; simp only [List.length_cons]; omega
      rw [p4GoF]
      by_cases hc : c = '\n'
      · subst hc
        rw [if_pos rfl]
        cases hm : splitLastNl (t.takeWhile isSpaceChar) with
        | none => exact hcons
        | some pr =>
          obtain ⟨a, b⟩ := pr
          dsimp only
          right
          have hw := splitLastNl_eq hm
          have h1 := takeWhile_dropWhile_length isSpaceChar t
          have h2 : (t.takeWhile isSpaceChar).length = a.length + 1 + b.length := by
            rw [hw]
            simp
            omega
          rcases ih (b ++ t.dropWhile isSpaceChar) with h | h
          · rw [h]
            simp only [List.length_cons, List.length_append]
            omega
          · simp only [List.length_cons, List.length_append] at h ⊢
            omega
      · rw [if_neg hc]
        exact hcons

theorem dropWhile_self_or_lt (p : Char → Bool) (l : List Char) :
    l.dropWhile p = l ∨ (l.dropWhile p).length < l.length := by
  cases l with
  | nil => left; rfl
  | cons c t =>
    by_cases hc : p c
    · right
      rw [List.dropWhile_cons, if_pos hc]
      have := dropWhile_length_le p t
      simp only [List.length_cons]
      omega
    · left
      rw [List.dropWhile_cons, if_neg hc]

theorem pyStrip_shrink (s : List Char) :
    pyStrip s = s ∨ (pyStrip s).length < s.length := by
  unfold pyStrip
  rcases dropWhile_self_or_lt isSpaceChar s with h1 | h1
  · rw [h1]
    rcases dropWhile_self_or_lt isSpaceChar s.reverse with h2 | h2
    · left
      rw [h2, List.reverse_reverse]
    · right
      simpa using h2
  · right
    have h2 := dropWhile_length_le isSpaceChar (s.dropWhile isSpaceChar).reverse
    simp only [List.length_reverse] at h2 ⊢
    omega

theorem p1Sub_shrink (s : List Char) : p1Sub s = s ∨ (p1Sub s).length < s.length :=
  p1GoF_shrink (s.length + 1) s true

theorem p2Sub_shrink (s : List Char) : p2Sub s = s ∨ (p2Sub s).length < s.length :=
  p2GoF_shrink (s.length + 1) none s

theorem p3Sub_shrink (s : List Char) : p3Sub s = s ∨ (p3Sub s).length < s.length :=
  p3GoF_shrink (s.length + 1) none s

theorem p4Sub_shrink (s : List Char) : p4Sub s = s ∨ (p4Sub s).length < s.length :=
  p4GoF_shrink (s.length + 1) s

theorem p1Sub_le (s : List Char) : (p1Sub s).length ≤ s.length := by
  rcases p1Sub_shrink s with h | h
  · rw [h]
  · omega

theorem p2Sub_le (s : List Char) : (p2Sub s).length ≤ s.length := by
  rcases p2Sub_shrink s with h | h
  · rw [h]
  · omega

theorem p3Sub_le (s : List Char) : (p3Sub s).length ≤ s.length := by
  rcases p3Sub_shrink s with h | h
  · rw [h]
  · omega

theorem clean_content_shrink (x : List Char) :
    clean_content x = x ∨ (clean_content x).length < x.length := by
  by_cases hx : x.isEmpty
  · left
    have hxe : x = [] := by simpa [List.isEmpty_iff] using hx
    subst hxe
    rfl
  · unfold clean_content
    simp only [Bool.not_eq_true] at hx
    simp only [hx, Bool.false_eq_true, if_false]
    have le1 := p1Sub_le x
    have le2 := p2Sub_le (p1Sub x)
    have le3 := p3Sub_le (p2Sub (p1Sub x))
    rcases pyStrip_shrink (p4Sub (p3Sub (p2Sub (p1Sub x)))) with e5 | l5
    · rw [e5]
      rcases p4Sub_shrink (p3Sub (p2Sub (p1Sub x))) with e4 | l4
      · rw [e4]
        rcases p3Sub_shrink (p2Sub (p1Sub x)) with e3 | l3
        · rw [e3]
          rcases p2Sub_shrink (p1Sub x) with e2 | l2
          · rw [e2]
            exact p1Sub_shrink x
          · right; omega
        · right; omega
      · right; omega
    · have le4 := p4Sub_shrink (p3Sub (p2Sub (p1Sub x)))
      right
      rcases le4 with e4 | l4
      · rw [e4] at l5 ⊢; omega
      · omega

theorem clean_content_iter_fixed : ∀ (n : Nat) (x : List Char), x.length ≤ n →
    clean_content (clean_content^[n] x) = clean_content^[n] x := by
  intro n
  induction n with
  | zero =>
    intro x hx
    have hxe : x = [] := by
      cases x with
      | nil => rfl
      | cons _ _ => simp at hx
    subst hxe
    rfl
  | succ n ih =>
    intro x hx
    rcases clean_content_shrink x with he | hl
    · rw [Function.iterate_fixed he]
      exact he
    · rw [Function.iterate_succ_apply]
      exact ih (clean_content x) (by omega)

/-- **C7** (counterexample): `clean_content` is NOT idempotent.  On
`"P1 2"` the `\bP\d+\b` pass removes `P1` and stripping leaves `"2"`;
a second application then deletes `"2"` as a digits-only line, so
`clean(clean("P1 2")) = "" ≠ "2" = clean("P1 2")`. -/
theorem c7_clean_counterexample :
    clean_content (clean_content "P1 2".toList) ≠ clean_content "P1 2".toList := by
  decide

/-- **C7** (amended): `clean_content` is not idempotent in general (a
pass can expose material - e.g. a digits-only line - that only the next
application removes), but every application either leaves its input
fixed or strictly shortens it, so iterating `clean_content` reaches a
fixed point after at most `length x` applications. -/
theorem c7_clean_shrink_or_fixed :
    ∀ x : List Char,
      (clean_content x = x ∨ (clean_content x).length < x.length) ∧
      clean_content (clean_content^[x.length] x) = clean_content^[x.length] x :=
  fun x => ⟨clean_content_shrink x, clean_content_iter_fixed x.length x (le_refl _)⟩
